import Mathlib

set_option maxRecDepth 100000

/-!
# Verification of the lung-cancer sequence-comparison core

The program compares a user DNA sequence against a reference sequence.
Its core consists of:

* `calculate_similarity` — Ratcliff/Obershelp block-matching similarity
  (the behaviour of `difflib.SequenceMatcher(None, a, b).ratio() * 100`),
* `perform_global_alignment` / `perform_local_alignment` — Needleman–Wunsch
  and Smith–Waterman pairwise alignment (the behaviour of
  `Bio.pairwise2.align.globalxx` / `localxx`),
* `check_infection` — a fixed-threshold classifier on the similarity value.

The similarity and alignment algorithms live in external libraries
(`difflib`, `Bio.pairwise2`), so they are modelled here from the
specification's precise algorithm descriptions (§4.1, §4.2), with the
tie-break policies the specification fixes.  Scores are rationals
(`ℚ`)/integers (`ℤ`) rather than floating point; on the inputs considered
all values are exact.
-/

namespace LungCancer

/-! ## Similarity: Ratcliff/Obershelp block matching

Modelled from the spec: `calculate_similarity` delegates to
`difflib.SequenceMatcher`, which is not part of the repository.  §4.1:
"recursively find the longest contiguous matching block between the two
sequences, then recursively apply the same procedure to the unmatched left
and right remainders; the similarity ratio is `2 * M / T`"; ties among
equally long blocks are broken towards the earliest start in the first
sequence, then the earliest start in the second (the reference library's
policy). -/

/-- Length of the longest run of equal characters at the heads of two lists:
the size of the matching block starting at a given pair of positions is
`matchLen` of the corresponding suffixes. -/
def matchLen : List Char → List Char → Nat
  | x :: a, y :: b => if x = y then matchLen a b + 1 else 0
  | _, _ => 0

/-- Size of the contiguous matching block of `a` and `b` beginning at
positions `i` and `j` respectively. -/
def blockAt (a b : List Char) (i j : Nat) : Nat := matchLen (a.drop i) (b.drop j)

/-- One row of a row-major argmax scan: try each column `j < n` against the
fixed row `i`, keeping the incumbent unless a strictly larger value is
found (so the first maximum in scan order wins). -/
def scanRow [LinearOrder β] (f : Nat → Nat → β) (n i : Nat)
    (best : (Nat × Nat) × β) : (Nat × Nat) × β :=
  (List.range n).foldl (fun best j => if best.2 < f i j then ((i, j), f i j) else best) best

/-- Row-major argmax scan over `{0..m-1} × {0..n-1}`, starting from `init`
and keeping the first strictly largest value. -/
def bestScan [LinearOrder β] (f : Nat → Nat → β) (m n : Nat)
    (init : (Nat × Nat) × β) : (Nat × Nat) × β :=
  (List.range m).foldl (fun best i => scanRow f n i best) init

/-- The longest contiguous matching block of `a` and `b`, as a triple
`(i, j, size)`: scan all pairs of start positions in row-major order and
keep the first block of maximal size.  `(0, 0, 0)` when nothing matches. -/
def findLongestMatch (a b : List Char) : Nat × Nat × Nat :=
  let r := bestScan (blockAt a b) a.length b.length ((0, 0), 0)
  (r.1.1, r.1.2, r.2)

/-- Total size `M` of all matched blocks: find the longest matching block,
then recurse on the unmatched left and right remainders.  The recursion
depth is bounded by `|a| + |b|` (each level strictly shrinks the combined
length), so it is run with that much fuel. -/
def matchesTotalFuel : Nat → List Char → List Char → Nat
  | 0, _, _ => 0
  | fuel + 1, a, b =>
    let r := findLongestMatch a b
    if 0 < r.2.2 then
      r.2.2 + matchesTotalFuel fuel (a.take r.1) (b.take r.2.1)
        + matchesTotalFuel fuel (a.drop (r.1 + r.2.2)) (b.drop (r.2.1 + r.2.2))
    else 0

/-- `M`, the total size of all matched blocks of `a` and `b`. -/
def matchesTotal (a b : List Char) : Nat :=
  matchesTotalFuel (a.length + b.length) a b

/-- Similarity percentage between two DNA sequences: `2 * M / T * 100`
where `T` is the combined length, and `100` when both sequences are empty
(the reference ratio is `1.0` in that case). -/
def calculate_similarity (a b : List Char) : ℚ :=
  if a.length + b.length = 0 then 100
  else 2 * (matchesTotal a b : ℚ) / ((a.length : ℚ) + (b.length : ℚ)) * 100

/-! ## Classifier -/

/-- Spec §4.3: the sample is classified divergent ("infected") exactly when
the similarity percentage is strictly below the threshold. -/
def classify (similarityPct threshold : ℚ) : Bool := similarityPct < threshold

/-- `check_infection` from the source: compare the user sequence with the
reference; the infection threshold is fixed at 90% similarity. -/
def check_infection (reference userSequence : List Char) : Bool × ℚ :=
  let similarity := calculate_similarity reference userSequence
  (classify similarity 90, similarity)

/-! ## Alignment engine

Modelled from the spec: `perform_global_alignment` / `perform_local_alignment`
delegate to `Bio.pairwise2.align.globalxx` / `localxx`, which are not part of
the repository.  §4.2 fixes the dynamic programming recurrences, the
diagonal-then-up-then-left traceback tie-break, and the row-major
first-maximum rule for the local start cell. -/

/-- Scoring scheme (§3): reward for identical aligned characters, score for
differing aligned characters, score per gap.  `globalxx`/`localxx` behaviour
is `⟨1, 0, 0⟩`. -/
structure Scheme where
  matchScore : ℤ
  mismatchScore : ℤ
  gapScore : ℤ

/-- The fixed scheme used by the source (`globalxx`/`localxx`):
match = 1, mismatch = 0, gap = 0. -/
def xxScheme : Scheme := ⟨1, 0, 0⟩

/-- `s(x, y)`: match reward for equal characters, mismatch score otherwise. -/
def subScore (sc : Scheme) (x y : Char) : ℤ :=
  if x = y then sc.matchScore else sc.mismatchScore

/-- Row 0 of the global score matrix: `D[0][0] = 0`,
`D[0][j] = D[0][j-1] + gap`. -/
def rowZeroG (sc : Scheme) : Nat → ℤ
  | 0 => 0
  | j + 1 => rowZeroG sc j + sc.gapScore

/-- Row `i+1` of the global score matrix, from row `i`:
`D[i+1][0] = D[i][0] + gap` and
`D[i+1][j+1] = max(diag + s(a[i], b[j]), up + gap, left + gap)`. -/
def nextRowG (sc : Scheme) (a b : List Char) (i : Nat) (prev : Nat → ℤ) : Nat → ℤ
  | 0 => prev 0 + sc.gapScore
  | j + 1 =>
    max (max (prev j + subScore sc (a.getD i ' ') (b.getD j ' '))
      (prev (j + 1) + sc.gapScore)) (nextRowG sc a b i prev j + sc.gapScore)

/-- The Needleman–Wunsch score matrix `D` for `a` and `b`:
`Dg sc a b i j` is the optimal score of aligning the first `i` characters of
`a` against the first `j` characters of `b`. -/
def Dg (sc : Scheme) (a b : List Char) : Nat → Nat → ℤ
  | 0 => rowZeroG sc
  | i + 1 => nextRowG sc a b i (Dg sc a b i)

/-- Row `i+1` of the local (Smith–Waterman) matrix: same recurrence as the
global one, with the floor `max 0 _` applied at every cell and a zero
boundary. -/
def nextRowL (sc : Scheme) (a b : List Char) (i : Nat) (prev : Nat → ℤ) : Nat → ℤ
  | 0 => 0
  | j + 1 =>
    max 0 (max (max (prev j + subScore sc (a.getD i ' ') (b.getD j ' '))
      (prev (j + 1) + sc.gapScore)) (nextRowL sc a b i prev j + sc.gapScore))

/-- The Smith–Waterman score matrix for `a` and `b` (zero boundary, floored
recurrence). -/
def Dl (sc : Scheme) (a b : List Char) : Nat → Nat → ℤ
  | 0 => fun _ => 0
  | i + 1 => nextRowL sc a b i (Dl sc a b i)

/-- The best cell of the local matrix: scan all cells in row-major order and
keep the first cell of strictly maximal value, starting from cell `(0,0)`
whose value is `0`.  Returns `((i, j), value)`. -/
def localBest (sc : Scheme) (a b : List Char) : (Nat × Nat) × ℤ :=
  bestScan (Dl sc a b) (a.length + 1) (b.length + 1) ((0, 0), 0)

/-- Traceback through the global matrix from cell `(i, j)` back to `(0, 0)`,
preferring a diagonal move when it achieves the cell's value, then up, then
left; produces the two gapped aligned strings.  `fuel ≥ i + j` suffices. -/
def tracebackG (sc : Scheme) (a b : List Char) : Nat → Nat → Nat → List Char × List Char
  | 0, _, _ => ([], [])
  | _ + 1, 0, 0 => ([], [])
  | fuel + 1, i + 1, 0 =>
    let p := tracebackG sc a b fuel i 0
    (p.1 ++ [a.getD i ' '], p.2 ++ ['-'])
  | fuel + 1, 0, j + 1 =>
    let p := tracebackG sc a b fuel 0 j
    (p.1 ++ ['-'], p.2 ++ [b.getD j ' '])
  | fuel + 1, i + 1, j + 1 =>
    if Dg sc a b (i + 1) (j + 1)
        = Dg sc a b i j + subScore sc (a.getD i ' ') (b.getD j ' ') then
      let p := tracebackG sc a b fuel i j
      (p.1 ++ [a.getD i ' '], p.2 ++ [b.getD j ' '])
    else if Dg sc a b (i + 1) (j + 1) = Dg sc a b i (j + 1) + sc.gapScore then
      let p := tracebackG sc a b fuel i (j + 1)
      (p.1 ++ [a.getD i ' '], p.2 ++ ['-'])
    else
      let p := tracebackG sc a b fuel (i + 1) j
      (p.1 ++ ['-'], p.2 ++ [b.getD j ' '])

/-- The result of an alignment: the two gapped aligned strings, the score,
and the start/end offsets of the aligned region in each original sequence. -/
structure AlignedPair where
  alignedA : List Char
  alignedB : List Char
  score : ℤ
  startA : Nat
  endA : Nat
  startB : Nat
  endB : Nat
deriving DecidableEq, Repr

/-- Global alignment (Needleman–Wunsch): optimal score `D[|a|][|b|]`,
alignment reconstructed by traceback from `(|a|, |b|)`, spanning both
sequences entirely. -/
def global_align (sc : Scheme) (a b : List Char) : AlignedPair :=
  let p := tracebackG sc a b (a.length + b.length) a.length b.length
  ⟨p.1, p.2, Dg sc a b a.length b.length, 0, a.length, 0, b.length⟩

/-- Traceback through the local matrix from cell `(i, j)`, stopping at the
first cell of value `0`; same move tie-break as the global traceback.
Returns the aligned strings and the cell where the traceback stopped. -/
def tracebackL (sc : Scheme) (a b : List Char) :
    Nat → Nat → Nat → (List Char × List Char) × (Nat × Nat)
  | 0, i, j => (([], []), (i, j))
  | fuel + 1, i, j =>
    if Dl sc a b i j = 0 then (([], []), (i, j))
    else
      match i, j with
      | i + 1, j + 1 =>
        if Dl sc a b (i + 1) (j + 1)
            = Dl sc a b i j + subScore sc (a.getD i ' ') (b.getD j ' ') then
          let q := tracebackL sc a b fuel i j
          ((q.1.1 ++ [a.getD i ' '], q.1.2 ++ [b.getD j ' ']), q.2)
        else if Dl sc a b (i + 1) (j + 1) = Dl sc a b i (j + 1) + sc.gapScore then
          let q := tracebackL sc a b fuel i (j + 1)
          ((q.1.1 ++ [a.getD i ' '], q.1.2 ++ ['-']), q.2)
        else
          let q := tracebackL sc a b fuel (i + 1) j
          ((q.1.1 ++ ['-'], q.1.2 ++ [b.getD j ' ']), q.2)
      | _, _ => (([], []), (i, j))

/-- Local alignment (Smith–Waterman): the score is the maximum value in the
matrix, attained first in row-major order at `(i, j)`; the alignment is
reconstructed backward from there until a zero cell. -/
def local_align (sc : Scheme) (a b : List Char) : AlignedPair :=
  let best := localBest sc a b
  let t := tracebackL sc a b (best.1.1 + best.1.2) best.1.1 best.1.2
  ⟨t.1.1, t.1.2, best.2, t.2.1, best.1.1, t.2.2, best.1.2⟩

/-- `perform_global_alignment` from the source: global alignment under the
`globalxx` scheme, returned together with its score. -/
def perform_global_alignment (a b : List Char) : AlignedPair × ℤ :=
  let al := global_align xxScheme a b
  (al, al.score)

/-- `perform_local_alignment` from the source: local alignment under the
`localxx` scheme, returned together with its score. -/
def perform_local_alignment (a b : List Char) : AlignedPair × ℤ :=
  let al := local_align xxScheme a b
  (al, al.score)

/-! ## Spec-side definitions used to state the claims -/

/-- Spec §4.1 read literally: the list of the sizes of all matched blocks —
find the longest contiguous matching block, then apply the same procedure
to the unmatched left and right remainders.  (Same fuel discipline as
`matchesTotalFuel`.) -/
def ratcliffBlocks : Nat → List Char → List Char → List Nat
  | 0, _, _ => []
  | fuel + 1, a, b =>
    let r := findLongestMatch a b
    if 0 < r.2.2 then
      ratcliffBlocks fuel (a.take r.1) (b.take r.2.1)
        ++ r.2.2 :: ratcliffBlocks fuel (a.drop (r.1 + r.2.2)) (b.drop (r.2.1 + r.2.2))
    else []

/-- `M` of the spec: the total length of all matched blocks found by the
Ratcliff/Obershelp recursion. -/
def ratcliffM (a b : List Char) : Nat :=
  (ratcliffBlocks (a.length + b.length) a b).sum

/-- Length of a longest common subsequence, by the textbook recursion. -/
def lcsLen : List Char → List Char → Nat
  | [], _ => 0
  | _, [] => 0
  | x :: a, y :: b =>
    if x = y then lcsLen a b + 1
    else max (lcsLen (x :: a) b) (lcsLen a (y :: b))

/-- `n` is the length of a longest common subsequence of `a` and `b`:
some common subsequence has length `n` and none is longer. -/
def IsLcsLength (a b : List Char) (n : Nat) : Prop :=
  (∃ c : List Char, c.Sublist a ∧ c.Sublist b ∧ c.length = n) ∧
    ∀ c : List Char, c.Sublist a → c.Sublist b → c.length ≤ n

/-- One full comparison run, as performed by `main` on a validated query:
infection check, global alignment, local alignment. -/
def fullComparison (reference userSequence : List Char) :
    (Bool × ℚ) × (AlignedPair × ℤ) × (AlignedPair × ℤ) :=
  (check_infection reference userSequence,
    perform_global_alignment reference userSequence,
    perform_local_alignment reference userSequence)

/-- The alphabet validation `main` applies to the query before invoking the
core: every character must be one of A, T, G, C. -/
def isValidDNA (s : List Char) : Bool :=
  s.all fun base => base ∈ ['A', 'T', 'G', 'C']

/-- The decision structure of `main` after the reference is loaded: a query
that fails alphabet validation is rejected (`none`); otherwise the full
comparison is run on it. -/
def mainAnalysis (reference userSequence : List Char) :
    Option ((Bool × ℚ) × (AlignedPair × ℤ) × (AlignedPair × ℤ)) :=
  if isValidDNA userSequence then some (fullComparison reference userSequence) else none

end LungCancer

namespace LungCancer

/-! ## Facts about the row-major argmax scan -/

section ScanFacts

variable {β : Type} [LinearOrder β] (f : Nat → Nat → β)

theorem scanFold_ge (i : Nat) (js : List Nat) :
    ∀ best : (Nat × Nat) × β,
      best.2 ≤ (js.foldl (fun best j => if best.2 < f i j then ((i, j), f i j) else best) best).2 := by
  induction js with
  | nil => intro best; exact le_rfl
  | cons j js ih =>
    intro best
    rw [List.foldl_cons]
    by_cases h : best.2 < f i j
    · rw [if_pos h]; exact le_trans (le_of_lt h) (ih ((i, j), f i j))
    · rw [if_neg h]; exact ih best

theorem scanFold_mem (i : Nat) (js : List Nat) :
    ∀ best : (Nat × Nat) × β, ∀ j ∈ js,
      f i j ≤ (js.foldl (fun best j => if best.2 < f i j then ((i, j), f i j) else best) best).2 := by
  induction js with
  | nil => intro best j hj; cases hj
  | cons j' js ih =>
    intro best j hj
    rw [List.foldl_cons]
    rcases List.mem_cons.mp hj with rfl | hj
    · by_cases h : best.2 < f i j
      · rw [if_pos h]; exact scanFold_ge f i js ((i, j), f i j)
      · rw [if_neg h]; exact le_trans (not_lt.mp h) (scanFold_ge f i js best)
    · by_cases h : best.2 < f i j'
      · rw [if_pos h]; exact ih _ j hj
      · rw [if_neg h]; exact ih best j hj

theorem scanFold_attained (i : Nat) (js : List Nat) :
    ∀ best : (Nat × Nat) × β,
      (js.foldl (fun best j => if best.2 < f i j then ((i, j), f i j) else best) best) = best
      ∨ ∃ j ∈ js,
        (js.foldl (fun best j => if best.2 < f i j then ((i, j), f i j) else best) best)
          = ((i, j), f i j) := by
  induction js with
  | nil => intro best; exact Or.inl rfl
  | cons j' js ih =>
    intro best
    rw [List.foldl_cons]
    by_cases h : best.2 < f i j'
    · rw [if_pos h]
      rcases ih ((i, j'), f i j') with heq | ⟨j, hj, heq⟩
      · exact Or.inr ⟨j', List.mem_cons_self _ _, heq⟩
      · exact Or.inr ⟨j, List.mem_cons_of_mem _ hj, heq⟩
    · rw [if_neg h]
      rcases ih best with heq | ⟨j, hj, heq⟩
      · exact Or.inl heq
      · exact Or.inr ⟨j, List.mem_cons_of_mem _ hj, heq⟩

theorem scanFold_stable (i : Nat) (js : List Nat) :
    ∀ best : (Nat × Nat) × β, (∀ j ∈ js, f i j ≤ best.2) →
      (js.foldl (fun best j => if best.2 < f i j then ((i, j), f i j) else best) best) = best := by
  induction js with
  | nil => intro best _; rfl
  | cons j' js ih =>
    intro best hb
    rw [List.foldl_cons, if_neg (not_lt.mpr (hb j' (List.mem_cons_self _ _)))]
    exact ih best fun j hj => hb j (List.mem_cons_of_mem _ hj)

theorem bestFold_ge (n : Nat) (is : List Nat) :
    ∀ init : (Nat × Nat) × β,
      init.2 ≤ (is.foldl (fun best i => scanRow f n i best) init).2 := by
  induction is with
  | nil => intro init; exact le_rfl
  | cons i' is ih =>
    intro init
    rw [List.foldl_cons]
    exact le_trans (scanFold_ge f i' (List.range n) init) (ih _)

theorem bestFold_mem (n : Nat) (is : List Nat) :
    ∀ init : (Nat × Nat) × β, ∀ i ∈ is, ∀ j ∈ List.range n,
      f i j ≤ (is.foldl (fun best i => scanRow f n i best) init).2 := by
  induction is with
  | nil => intro init i hi; cases hi
  | cons i' is ih =>
    intro init i hi j hj
    rw [List.foldl_cons]
    rcases List.mem_cons.mp hi with rfl | hi
    · exact le_trans (scanFold_mem f i (List.range n) init j hj) (bestFold_ge f n is _)
    · exact ih _ i hi j hj

theorem bestFold_attained (n : Nat) (is : List Nat) :
    ∀ init : (Nat × Nat) × β,
      (is.foldl (fun best i => scanRow f n i best) init) = init
      ∨ ∃ i ∈ is, ∃ j ∈ List.range n,
          (is.foldl (fun best i => scanRow f n i best) init) = ((i, j), f i j) := by
  induction is with
  | nil => intro init; exact Or.inl rfl
  | cons i' is ih =>
    intro init
    rw [List.foldl_cons]
    rcases ih (scanRow f n i' init) with heq | ⟨i, hi, j, hj, heq⟩
    · rcases scanFold_attained f i' (List.range n) init with h3 | ⟨j, hj, h3⟩
      · exact Or.inl (heq.trans h3)
      · exact Or.inr ⟨i', List.mem_cons_self _ _, j, hj, heq.trans h3⟩
    · exact Or.inr ⟨i, List.mem_cons_of_mem _ hi, j, hj, heq⟩

theorem bestFold_stable (n : Nat) (is : List Nat) :
    ∀ init : (Nat × Nat) × β, (∀ i ∈ is, ∀ j ∈ List.range n, f i j ≤ init.2) →
      (is.foldl (fun best i => scanRow f n i best) init) = init := by
  induction is with
  | nil => intro init _; rfl
  | cons i' is ih =>
    intro init h
    rw [List.foldl_cons]
    have hrow : scanRow f n i' init = init :=
      scanFold_stable f i' (List.range n) init (h i' (List.mem_cons_self _ _))
    rw [hrow]
    exact ih init fun i hi j hj => h i (List.mem_cons_of_mem _ hi) j hj

theorem bestScan_ge_init (m n : Nat) (init : (Nat × Nat) × β) :
    init.2 ≤ (bestScan f m n init).2 :=
  bestFold_ge f n (List.range m) init

theorem bestScan_ge (m n : Nat) (init : (Nat × Nat) × β) {i j : Nat}
    (hi : i < m) (hj : j < n) : f i j ≤ (bestScan f m n init).2 :=
  bestFold_mem f n (List.range m) init i (List.mem_range.mpr hi) j (List.mem_range.mpr hj)

theorem bestScan_attained (m n : Nat) (init : (Nat × Nat) × β) :
    bestScan f m n init = init
    ∨ ∃ i < m, ∃ j < n, bestScan f m n init = ((i, j), f i j) := by
  rcases bestFold_attained f n (List.range m) init with h | ⟨i, hi, j, hj, h⟩
  · exact Or.inl h
  · exact Or.inr ⟨i, List.mem_range.mp hi, j, List.mem_range.mp hj, h⟩

theorem bestScan_stable (m n : Nat) (init : (Nat × Nat) × β)
    (hmax : ∀ i < m, ∀ j < n, f i j ≤ init.2) : bestScan f m n init = init :=
  bestFold_stable f n (List.range m) init
    (fun i hi j hj => hmax i (List.mem_range.mp hi) j (List.mem_range.mp hj))

theorem bestScan_first_max (m n : Nat) (init : (Nat × Nat) × β)
    (hm : 0 < m) (hn : 0 < n) (h0 : init.2 < f 0 0)
    (hmax : ∀ i < m, ∀ j < n, f i j ≤ f 0 0) :
    bestScan f m n init = ((0, 0), f 0 0) := by
  obtain ⟨m', rfl⟩ : ∃ m', m = m' + 1 := ⟨m - 1, by omega⟩
  obtain ⟨n', rfl⟩ : ∃ n', n = n' + 1 := ⟨n - 1, by omega⟩
  unfold bestScan
  rw [List.range_succ_eq_map, List.foldl_cons]
  have hrow : scanRow f (n' + 1) 0 init = ((0, 0), f 0 0) := by
    unfold scanRow
    rw [List.range_succ_eq_map, List.foldl_cons, if_pos h0]
    refine scanFold_stable f 0 _ _ ?_
    intro j hj
    obtain ⟨j', hj', rfl⟩ := List.mem_map.mp hj
    have hlt : j' < n' := List.mem_range.mp hj'
    exact hmax 0 (by omega) (Nat.succ j') (by omega)
  rw [hrow]
  refine bestFold_stable f (n' + 1) _ ((0, 0), f 0 0) ?_
  intro i hi j hj
  obtain ⟨i', hi', rfl⟩ := List.mem_map.mp hi
  have hlt : i' < m' := List.mem_range.mp hi'
  have hltj : j < n' + 1 := List.mem_range.mp hj
  exact hmax (Nat.succ i') (by omega) j hltj

end ScanFacts

/-! ## Facts about block matching and the similarity score -/

theorem matchLen_comm (a : List Char) : ∀ b : List Char, matchLen a b = matchLen b a := by
  induction a with
  | nil => intro b; cases b <;> rfl
  | cons x a ih =>
    intro b
    cases b with
    | nil => rfl
    | cons y b =>
      show (if x = y then matchLen a b + 1 else 0) = (if y = x then matchLen b a + 1 else 0)
      by_cases h : x = y
      · rw [if_pos h, if_pos h.symm, ih b]
      · rw [if_neg h, if_neg fun hh => h hh.symm]

theorem matchLen_le_left (a : List Char) : ∀ b : List Char, matchLen a b ≤ a.length := by
  induction a with
  | nil => intro b; cases b <;> simp [matchLen]
  | cons x a ih =>
    intro b
    cases b with
    | nil => simp [matchLen]
    | cons y b =>
      show (if x = y then matchLen a b + 1 else 0) ≤ a.length + 1
      by_cases h : x = y
      · rw [if_pos h]; exact Nat.succ_le_succ (ih b)
      · rw [if_neg h]; exact Nat.zero_le _

theorem matchLen_self (s : List Char) : matchLen s s = s.length := by
  induction s with
  | nil => rfl
  | cons x s ih =>
    show (if x = x then matchLen s s + 1 else 0) = s.length + 1
    rw [if_pos rfl, ih]

theorem blockAt_le_left (a b : List Char) (i j : Nat) : blockAt a b i j ≤ a.length := by
  unfold blockAt
  exact le_trans (matchLen_le_left _ _) (by rw [List.length_drop]; omega)

theorem findLongestMatch_self (s : List Char) (hs : s ≠ []) :
    findLongestMatch s s = (0, 0, s.length) := by
  have hlen : 0 < s.length := List.length_pos.mpr hs
  have hb00 : blockAt s s 0 0 = s.length := by
    simp [blockAt, matchLen_self]
  have h := bestScan_first_max (blockAt s s) s.length s.length ((0, 0), 0) hlen hlen
    (by rw [hb00]; exact hlen)
    (by intro i hi j hj; rw [hb00]; exact blockAt_le_left s s i j)
  simp only [findLongestMatch]
  rw [h, hb00]

theorem findLongestMatch_lt (a b : List Char) (hk : 0 < (findLongestMatch a b).2.2) :
    (findLongestMatch a b).1 < a.length ∧ (findLongestMatch a b).2.1 < b.length := by
  simp only [findLongestMatch] at hk ⊢
  rcases bestScan_attained (blockAt a b) a.length b.length ((0, 0), 0) with hb | ⟨i, hi, j, hj, hb⟩
  · rw [hb] at hk; simp at hk
  · rw [hb]; exact ⟨hi, hj⟩

theorem findLongestMatch_ge (a b : List Char) {i j : Nat}
    (hi : i < a.length) (hj : j < b.length) :
    blockAt a b i j ≤ (findLongestMatch a b).2.2 := by
  simp only [findLongestMatch]
  exact bestScan_ge (blockAt a b) a.length b.length ((0, 0), 0) hi hj

theorem findLongestMatch_size_attained (a b : List Char) :
    (findLongestMatch a b).2.2 = 0
    ∨ ∃ i < a.length, ∃ j < b.length, (findLongestMatch a b).2.2 = blockAt a b i j := by
  simp only [findLongestMatch]
  rcases bestScan_attained (blockAt a b) a.length b.length ((0, 0), 0) with h | ⟨i, hi, j, hj, h⟩
  · rw [h]; exact Or.inl rfl
  · rw [h]; exact Or.inr ⟨i, hi, j, hj, rfl⟩

theorem matchesTotalFuel_nil (fuel : Nat) : matchesTotalFuel fuel [] [] = 0 := by
  cases fuel with
  | zero => rfl
  | succ f => rfl

theorem matchesTotal_self (s : List Char) (hs : s ≠ []) : matchesTotal s s = s.length := by
  have hlen : 0 < s.length := List.length_pos.mpr hs
  unfold matchesTotal
  obtain ⟨f, hf⟩ : ∃ f, s.length + s.length = f + 1 := ⟨s.length + s.length - 1, by omega⟩
  rw [hf]
  simp only [matchesTotalFuel]
  rw [findLongestMatch_self s hs]
  simp [hlen, matchesTotalFuel_nil, List.drop_length]

/-- The fuel bound `|a| + |b|` used in `matchesTotal` is irrelevant as long
as it is sufficient: the recursion bottoms out before the fuel does. -/
theorem matchesTotalFuel_congr : ∀ fuel fuel2 : Nat, ∀ a b : List Char,
    a.length + b.length ≤ fuel → a.length + b.length ≤ fuel2 →
    matchesTotalFuel fuel a b = matchesTotalFuel fuel2 a b := by
  intro fuel
  induction fuel with
  | zero =>
    intro fuel2 a b h1 h2
    have ha : a = [] := List.length_eq_zero.mp (by omega)
    have hb : b = [] := List.length_eq_zero.mp (by omega)
    subst ha; subst hb
    rw [matchesTotalFuel_nil, matchesTotalFuel_nil]
  | succ f ih =>
    intro fuel2 a b h1 h2
    cases fuel2 with
    | zero =>
      have ha : a = [] := List.length_eq_zero.mp (by omega)
      have hb : b = [] := List.length_eq_zero.mp (by omega)
      subst ha; subst hb
      rw [matchesTotalFuel_nil, matchesTotalFuel_nil]
    | succ g =>
      simp only [matchesTotalFuel]
      by_cases h : 0 < (findLongestMatch a b).2.2
      · obtain ⟨hi, hj⟩ := findLongestMatch_lt a b h
        rw [if_pos h, if_pos h]
        rw [ih g (a.take (findLongestMatch a b).1) (b.take (findLongestMatch a b).2.1)
            (by simp [List.length_take]; omega) (by simp [List.length_take]; omega)]
        rw [ih g (a.drop ((findLongestMatch a b).1 + (findLongestMatch a b).2.2))
            (b.drop ((findLongestMatch a b).2.1 + (findLongestMatch a b).2.2))
            (by simp [List.length_drop]; omega) (by simp [List.length_drop]; omega)]
      · rw [if_neg h, if_neg h]

theorem matchesTotalFuel_eq (fuel : Nat) (a b : List Char)
    (h : a.length + b.length ≤ fuel) :
    matchesTotalFuel fuel a b = matchesTotal a b :=
  matchesTotalFuel_congr fuel (a.length + b.length) a b h le_rfl

theorem ratcliffBlocks_sum (fuel : Nat) :
    ∀ a b : List Char, (ratcliffBlocks fuel a b).sum = matchesTotalFuel fuel a b := by
  induction fuel with
  | zero => intro a b; rfl
  | succ f ih =>
    intro a b
    simp only [ratcliffBlocks, matchesTotalFuel]
    by_cases h : 0 < (findLongestMatch a b).2.2
    · rw [if_pos h, if_pos h, List.sum_append, List.sum_cons, ih, ih]
      omega
    · rw [if_neg h, if_neg h]; rfl

/-! ## Facts about the alignment matrices -/

theorem rowZeroG_eq (sc : Scheme) : ∀ j : Nat, rowZeroG sc j = sc.gapScore * j := by
  intro j
  induction j with
  | zero => simp [rowZeroG]
  | succ j ih =>
    show rowZeroG sc j + sc.gapScore = _
    rw [ih]
    push_cast
    ring

theorem Dg_zero (sc : Scheme) (a b : List Char) (j : Nat) :
    Dg sc a b 0 j = rowZeroG sc j := rfl

theorem Dg_col_zero (sc : Scheme) (a b : List Char) :
    ∀ i : Nat, Dg sc a b i 0 = sc.gapScore * i := by
  intro i
  induction i with
  | zero => simp [Dg, rowZeroG]
  | succ i ih =>
    show Dg sc a b i 0 + sc.gapScore = _
    rw [ih]
    push_cast
    ring

theorem Dg_succ_succ (sc : Scheme) (a b : List Char) (i j : Nat) :
    Dg sc a b (i + 1) (j + 1)
      = max (max (Dg sc a b i j + subScore sc (a.getD i ' ') (b.getD j ' '))
          (Dg sc a b i (j + 1) + sc.gapScore)) (Dg sc a b (i + 1) j + sc.gapScore) := rfl

theorem Dl_zero (sc : Scheme) (a b : List Char) (j : Nat) : Dl sc a b 0 j = 0 := rfl

theorem Dl_col_zero (sc : Scheme) (a b : List Char) : ∀ i : Nat, Dl sc a b i 0 = 0 := by
  intro i
  cases i <;> rfl

theorem Dl_succ_succ (sc : Scheme) (a b : List Char) (i j : Nat) :
    Dl sc a b (i + 1) (j + 1)
      = max 0 (max (max (Dl sc a b i j + subScore sc (a.getD i ' ') (b.getD j ' '))
          (Dl sc a b i (j + 1) + sc.gapScore)) (Dl sc a b (i + 1) j + sc.gapScore)) := rfl

theorem Dl_nonneg (sc : Scheme) (a b : List Char) : ∀ i j : Nat, 0 ≤ Dl sc a b i j := by
  intro i j
  cases i with
  | zero => rw [Dl_zero]
  | succ i =>
    cases j with
    | zero => rw [Dl_col_zero]
    | succ j => rw [Dl_succ_succ]; exact le_max_left 0 _

theorem Dg_nonneg (sc : Scheme) (hg : 0 ≤ sc.gapScore) (a b : List Char) :
    ∀ i j : Nat, 0 ≤ Dg sc a b i j := by
  intro i
  induction i with
  | zero =>
    intro j
    rw [Dg_zero, rowZeroG_eq]
    exact mul_nonneg hg (Int.natCast_nonneg j)
  | succ i ih =>
    intro j
    cases j with
    | zero =>
      rw [Dg_col_zero]
      exact mul_nonneg hg (Int.natCast_nonneg _)
    | succ j =>
      rw [Dg_succ_succ]
      exact le_trans (add_nonneg (ih (j + 1)) hg) (le_max_of_le_left (le_max_right _ _))

theorem Dl_le_Dg (sc : Scheme) (hg : 0 ≤ sc.gapScore) (a b : List Char) :
    ∀ i j : Nat, Dl sc a b i j ≤ Dg sc a b i j := by
  intro i
  induction i with
  | zero =>
    intro j
    rw [Dl_zero]
    exact Dg_nonneg sc hg a b 0 j
  | succ i ih =>
    intro j
    induction j with
    | zero =>
      rw [Dl_col_zero]
      exact Dg_nonneg sc hg a b (i + 1) 0
    | succ j ihj =>
      rw [Dl_succ_succ]
      refine max_le (Dg_nonneg sc hg a b (i + 1) (j + 1)) ?_
      rw [Dg_succ_succ]
      exact max_le_max (max_le_max (add_le_add_right (ih j) _) (add_le_add_right (ih (j + 1)) _))
        (add_le_add_right ihj _)

theorem Dg_mono_fst (sc : Scheme) (hg : 0 ≤ sc.gapScore) (a b : List Char) (i j : Nat) :
    Dg sc a b i j ≤ Dg sc a b (i + 1) j := by
  cases j with
  | zero =>
    rw [Dg_col_zero, Dg_col_zero]
    exact mul_le_mul_of_nonneg_left (by exact_mod_cast Nat.le_succ i) hg
  | succ j =>
    rw [Dg_succ_succ]
    exact le_trans (le_add_of_nonneg_right hg) (le_max_of_le_left (le_max_right _ _))

theorem Dg_mono_snd (sc : Scheme) (hg : 0 ≤ sc.gapScore) (a b : List Char) (i j : Nat) :
    Dg sc a b i j ≤ Dg sc a b i (j + 1) := by
  cases i with
  | zero =>
    show rowZeroG sc j ≤ rowZeroG sc j + sc.gapScore
    exact le_add_of_nonneg_right hg
  | succ i =>
    rw [Dg_succ_succ]
    exact le_trans (le_add_of_nonneg_right hg) (le_max_right _ _)

theorem Dg_le_corner (sc : Scheme) (hg : 0 ≤ sc.gapScore) (a b : List Char)
    {i j m n : Nat} (him : i ≤ m) (hjn : j ≤ n) :
    Dg sc a b i j ≤ Dg sc a b m n := by
  have h1 : Dg sc a b i j ≤ Dg sc a b m j := by
    induction m, him using Nat.le_induction with
    | base => exact le_rfl
    | succ m hm ih => exact le_trans ih (Dg_mono_fst sc hg a b m j)
  have h2 : Dg sc a b m j ≤ Dg sc a b m n := by
    induction n, hjn using Nat.le_induction with
    | base => exact le_rfl
    | succ n hn ih => exact le_trans ih (Dg_mono_snd sc hg a b m n)
  exact le_trans h1 h2

theorem localBest_nonneg (sc : Scheme) (a b : List Char) : 0 ≤ (localBest sc a b).2 := by
  unfold localBest
  exact bestScan_ge_init (Dl sc a b) _ _ ((0, 0), 0)

theorem localBest_le_corner (sc : Scheme) (hg : 0 ≤ sc.gapScore) (a b : List Char) :
    (localBest sc a b).2 ≤ Dg sc a b a.length b.length := by
  unfold localBest
  rcases bestScan_attained (Dl sc a b) (a.length + 1) (b.length + 1) ((0, 0), 0) with
    h | ⟨i, hi, j, hj, h⟩
  · rw [h]; exact Dg_nonneg sc hg a b _ _
  · rw [h]
    exact le_trans (Dl_le_Dg sc hg a b i j) (Dg_le_corner sc hg a b (by omega) (by omega))

/-! ## Traceback facts for empty inputs -/

theorem tracebackG_col (sc : Scheme) (a b : List Char) :
    ∀ i fuel : Nat, i ≤ a.length → i ≤ fuel →
      tracebackG sc a b fuel i 0 = (a.take i, List.replicate i '-') := by
  intro i
  induction i with
  | zero =>
    intro fuel _ _
    cases fuel with
    | zero => rfl
    | succ f => rfl
  | succ i ih =>
    intro fuel hi hfuel
    obtain ⟨f, rfl⟩ : ∃ f, fuel = f + 1 := ⟨fuel - 1, by omega⟩
    show (let p := tracebackG sc a b f i 0; (p.1 ++ [a.getD i ' '], p.2 ++ ['-'])) = _
    rw [ih f (by omega) (by omega)]
    rw [List.take_succ, List.getElem?_eq_getElem (show i < a.length by omega),
      List.getD_eq_getElem a ' ' (show i < a.length by omega), List.replicate_succ']
    rfl

theorem tracebackG_row (sc : Scheme) (a b : List Char) :
    ∀ j fuel : Nat, j ≤ b.length → j ≤ fuel →
      tracebackG sc a b fuel 0 j = (List.replicate j '-', b.take j) := by
  intro j
  induction j with
  | zero =>
    intro fuel _ _
    cases fuel with
    | zero => rfl
    | succ f => rfl
  | succ j ih =>
    intro fuel hj hfuel
    obtain ⟨f, rfl⟩ : ∃ f, fuel = f + 1 := ⟨fuel - 1, by omega⟩
    show (let p := tracebackG sc a b f 0 j; (p.1 ++ ['-'], p.2 ++ [b.getD j ' '])) = _
    rw [ih f (by omega) (by omega)]
    rw [List.take_succ, List.getElem?_eq_getElem (show j < b.length by omega),
      List.getD_eq_getElem b ' ' (show j < b.length by omega), List.replicate_succ']
    rfl

theorem global_align_nil_right (sc : Scheme) (a : List Char) :
    global_align sc a []
      = ⟨a, List.replicate a.length '-', sc.gapScore * a.length, 0, a.length, 0, 0⟩ := by
  simp only [global_align, List.length_nil, Nat.add_zero]
  rw [tracebackG_col sc a [] a.length a.length le_rfl le_rfl, Dg_col_zero, List.take_length]

theorem global_align_nil_left (sc : Scheme) (b : List Char) :
    global_align sc [] b
      = ⟨List.replicate b.length '-', b, sc.gapScore * b.length, 0, 0, 0, b.length⟩ := by
  simp only [global_align, List.length_nil, Nat.zero_add]
  rw [tracebackG_row sc [] b b.length b.length le_rfl le_rfl, Dg_zero, rowZeroG_eq,
    List.take_length]

theorem local_align_nil_right (sc : Scheme) (a : List Char) :
    local_align sc a [] = ⟨[], [], 0, 0, 0, 0, 0⟩ := by
  have hbest : localBest sc a [] = ((0, 0), 0) := by
    unfold localBest
    refine bestScan_stable (Dl sc a []) _ _ ((0, 0), 0) ?_
    intro i hi j hj
    have hj0 : j = 0 := by simp at hj; omega
    subst hj0
    rw [Dl_col_zero]
  simp only [local_align, hbest]
  rfl

theorem local_align_nil_left (sc : Scheme) (b : List Char) :
    local_align sc [] b = ⟨[], [], 0, 0, 0, 0, 0⟩ := by
  have hbest : localBest sc [] b = ((0, 0), 0) := by
    unfold localBest
    refine bestScan_stable (Dl sc [] b) _ _ ((0, 0), 0) ?_
    intro i hi j hj
    have hi0 : i = 0 := by simp at hi; omega
    subst hi0
    rw [Dl_zero]
  simp only [local_align, hbest]
  rfl

/-! ## Longest common subsequences -/

theorem lcsLen_nil_left (b : List Char) : lcsLen [] b = 0 := by
  simp [lcsLen]

theorem lcsLen_nil_right (a : List Char) : lcsLen a [] = 0 := by
  cases a <;> simp [lcsLen]

theorem lcsLen_cons_cons (x y : Char) (a b : List Char) :
    lcsLen (x :: a) (y :: b)
      = if x = y then lcsLen a b + 1
        else max (lcsLen (x :: a) b) (lcsLen a (y :: b)) := by
  simp [lcsLen]

theorem lcs_upper : ∀ a b c : List Char, c.Sublist a → c.Sublist b → c.length ≤ lcsLen a b := by
  intro a
  induction a with
  | nil =>
    intro b c hca _
    have hc : c = [] := List.sublist_nil.mp hca
    subst hc
    simp
  | cons x a iha =>
    intro b
    induction b with
    | nil =>
      intro c _ hcb
      have hc : c = [] := List.sublist_nil.mp hcb
      subst hc
      simp
    | cons y b ihb =>
      intro c hca hcb
      rw [lcsLen_cons_cons]
      by_cases hxy : x = y
      · subst hxy
        rw [if_pos rfl]
        cases c with
        | nil => simp
        | cons z c =>
          by_cases hzx : z = x
          · subst hzx
            have hc1 : c.Sublist a := List.cons_sublist_cons.mp hca
            have hc2 : c.Sublist b := List.cons_sublist_cons.mp hcb
            exact Nat.succ_le_succ (iha b c hc1 hc2)
          · have hc1 : (z :: c).Sublist a := by
              cases hca with
              | cons _ h => exact h
              | cons₂ _ h => exact absurd rfl hzx
            have hc2 : (z :: c).Sublist b := by
              cases hcb with
              | cons _ h => exact h
              | cons₂ _ h => exact absurd rfl hzx
            exact le_trans (iha b (z :: c) hc1 hc2) (Nat.le_succ _)
      · rw [if_neg hxy]
        cases c with
        | nil => simp
        | cons z c =>
          by_cases hzx : z = x
          · have hzy : z ≠ y := fun h => hxy (hzx ▸ h)
            have hc2 : (z :: c).Sublist b := by
              cases hcb with
              | cons _ h => exact h
              | cons₂ _ h => exact absurd rfl hzy
            exact le_trans (ihb (z :: c) hca hc2) (le_max_left _ _)
          · have hc1 : (z :: c).Sublist a := by
              cases hca with
              | cons _ h => exact h
              | cons₂ _ h => exact absurd rfl hzx
            exact le_trans (iha (y :: b) (z :: c) hc1 hcb) (le_max_right _ _)

theorem lcs_exists : ∀ a b : List Char,
    ∃ c : List Char, c.Sublist a ∧ c.Sublist b ∧ c.length = lcsLen a b := by
  intro a
  induction a with
  | nil =>
    intro b
    exact ⟨[], List.Sublist.refl [], List.nil_sublist b, by simp [lcsLen_nil_left]⟩
  | cons x a iha =>
    intro b
    induction b with
    | nil =>
      exact ⟨[], List.nil_sublist _, List.Sublist.refl [], by simp [lcsLen_nil_right]⟩
    | cons y b ihb =>
      rw [lcsLen_cons_cons]
      by_cases hxy : x = y
      · subst hxy
        rw [if_pos rfl]
        obtain ⟨c, h1, h2, h3⟩ := iha b
        exact ⟨x :: c, List.cons_sublist_cons.mpr h1, List.cons_sublist_cons.mpr h2,
          by simp [h3]⟩
      · rw [if_neg hxy]
        obtain ⟨c1, h11, h12, h13⟩ := ihb
        obtain ⟨c2, h21, h22, h23⟩ := iha (y :: b)
        rcases le_total (lcsLen (x :: a) b) (lcsLen a (y :: b)) with h | h
        · exact ⟨c2, List.sublist_cons_of_sublist x h21, h22, by rw [h23, max_eq_right h]⟩
        · exact ⟨c1, h11, List.sublist_cons_of_sublist y h12, by rw [h13, max_eq_left h]⟩

theorem isLcsLength_lcsLen (a b : List Char) : IsLcsLength a b (lcsLen a b) :=
  ⟨lcs_exists a b, fun c hca hcb => lcs_upper a b c hca hcb⟩

theorem isLcsLength_unique {a b : List Char} {m n : Nat}
    (hm : IsLcsLength a b m) (hn : IsLcsLength a b n) : m = n := by
  obtain ⟨⟨c1, hc1a, hc1b, hc1⟩, hub1⟩ := hm
  obtain ⟨⟨c2, hc2a, hc2b, hc2⟩, hub2⟩ := hn
  have h1 : m ≤ n := hc1 ▸ hub2 c1 hc1a hc1b
  have h2 : n ≤ m := hc2 ▸ hub1 c2 hc2a hc2b
  omega

theorem isLcsLength_reverse {a b : List Char} {n : Nat} (h : IsLcsLength a b n) :
    IsLcsLength a.reverse b.reverse n := by
  obtain ⟨⟨c, hca, hcb, hc⟩, hub⟩ := h
  refine ⟨⟨c.reverse, List.reverse_sublist.mpr hca, List.reverse_sublist.mpr hcb,
    by simp [hc]⟩, ?_⟩
  intro c2 hca2 hcb2
  have h1 : c2.reverse.Sublist a := by
    have := List.reverse_sublist.mpr hca2
    rwa [List.reverse_reverse] at this
  have h2 : c2.reverse.Sublist b := by
    have := List.reverse_sublist.mpr hcb2
    rwa [List.reverse_reverse] at this
  have := hub c2.reverse h1 h2
  simpa using this

theorem lcs_reverse (a b : List Char) : lcsLen a.reverse b.reverse = lcsLen a b :=
  isLcsLength_unique (isLcsLength_lcsLen _ _) (isLcsLength_reverse (isLcsLength_lcsLen a b))

theorem lcs_comm (a b : List Char) : lcsLen a b = lcsLen b a := by
  have h := isLcsLength_lcsLen b a
  refine isLcsLength_unique (isLcsLength_lcsLen a b) ⟨?_, ?_⟩
  · obtain ⟨⟨c, h1, h2, h3⟩, _⟩ := h
    exact ⟨c, h2, h1, h3⟩
  · intro c hca hcb
    exact h.2 c hcb hca

theorem lcs_le_concat_right (u v : List Char) (y : Char) :
    lcsLen u v ≤ lcsLen u (v ++ [y]) := by
  obtain ⟨c, hcu, hcv, hc⟩ := lcs_exists u v
  rw [← hc]
  exact lcs_upper _ _ c hcu (hcv.trans (List.sublist_append_left v [y]))

theorem lcs_concat_right_le (u v : List Char) (y : Char) :
    lcsLen u (v ++ [y]) ≤ lcsLen u v + 1 := by
  obtain ⟨c, hcu, hcv, hc⟩ := lcs_exists u (v ++ [y])
  rw [← hc]
  rw [List.sublist_append_iff] at hcv
  obtain ⟨c1, c2, rfl, h1, h2⟩ := hcv
  rw [List.sublist_singleton] at h2
  rcases h2 with rfl | rfl
  · rw [List.append_nil] at hcu ⊢
    exact le_trans (lcs_upper u v c1 hcu h1) (Nat.le_succ _)
  · have hc1u : c1.Sublist u := (List.sublist_append_left c1 [y]).trans hcu
    have hb := lcs_upper u v c1 hc1u h1
    simp only [List.length_append, List.length_cons, List.length_nil]
    omega

theorem lcs_le_concat_left (u v : List Char) (x : Char) :
    lcsLen u v ≤ lcsLen (u ++ [x]) v := by
  rw [lcs_comm u v, lcs_comm (u ++ [x]) v]
  exact lcs_le_concat_right v u x

theorem lcs_concat_left_le (u v : List Char) (x : Char) :
    lcsLen (u ++ [x]) v ≤ lcsLen u v + 1 := by
  rw [lcs_comm u v, lcs_comm (u ++ [x]) v]
  exact lcs_concat_right_le v u x

theorem lcs_concat_concat (u v : List Char) (x y : Char) :
    lcsLen (u ++ [x]) (v ++ [y])
      = if x = y then lcsLen u v + 1
        else max (lcsLen (u ++ [x]) v) (lcsLen u (v ++ [y])) := by
  have h1 : lcsLen (u ++ [x]) (v ++ [y]) = lcsLen (x :: u.reverse) (y :: v.reverse) := by
    rw [← lcs_reverse (u ++ [x]) (v ++ [y])]
    simp [List.reverse_append]
  rw [h1, lcsLen_cons_cons]
  by_cases hxy : x = y
  · rw [if_pos hxy, if_pos hxy, lcs_reverse]
  · rw [if_neg hxy, if_neg hxy]
    congr 1
    · rw [← lcs_reverse (u ++ [x]) v]
      simp [List.reverse_append]
    · rw [← lcs_reverse u (v ++ [y])]
      simp [List.reverse_append]

/-! ## The xx scheme computes longest common subsequences -/

theorem rowZeroG_xx (j : Nat) : rowZeroG xxScheme j = 0 := by
  rw [rowZeroG_eq]
  simp [xxScheme]

theorem take_succ_getD (l : List Char) (i : Nat) (h : i < l.length) :
    l.take (i + 1) = l.take i ++ [l.getD i ' '] := by
  rw [List.take_succ, List.getElem?_eq_getElem h, List.getD_eq_getElem l ' ' h]
  rfl

theorem Dg_xx_eq_lcs (a b : List Char) :
    ∀ i j : Nat, i ≤ a.length → j ≤ b.length →
      Dg xxScheme a b i j = (lcsLen (a.take i) (b.take j) : ℤ) := by
  intro i
  induction i with
  | zero =>
    intro j _ _
    rw [Dg_zero, rowZeroG_xx]
    simp [lcsLen_nil_left]
  | succ i ih =>
    intro j hi
    induction j with
    | zero =>
      intro _
      rw [Dg_col_zero]
      simp [xxScheme, lcsLen_nil_right]
    | succ j ihj =>
      intro hj
      rw [Dg_succ_succ]
      have hgap : xxScheme.gapScore = 0 := rfl
      have hs : subScore xxScheme (a.getD i ' ') (b.getD j ' ')
          = if a.getD i ' ' = b.getD j ' ' then (1 : ℤ) else 0 := rfl
      rw [hgap, hs, add_zero, add_zero]
      rw [ih j (by omega) (by omega), ih (j + 1) (by omega) (by omega), ihj (by omega)]
      rw [take_succ_getD a i (by omega), take_succ_getD b j (by omega), lcs_concat_concat]
      by_cases hxy : a.getD i ' ' = b.getD j ' '
      · rw [if_pos hxy, if_pos hxy]
        have h2 := lcs_concat_right_le (a.take i) (b.take j) (b.getD j ' ')
        have h3 := lcs_concat_left_le (a.take i) (b.take j) (a.getD i ' ')
        push_cast
        omega
      · rw [if_neg hxy, if_neg hxy]
        have h4 := lcs_le_concat_right (a.take i) (b.take j) (b.getD j ' ')
        push_cast
        omega

theorem Dl_xx_eq_Dg (a b : List Char) :
    ∀ i j : Nat, Dl xxScheme a b i j = Dg xxScheme a b i j := by
  intro i
  induction i with
  | zero =>
    intro j
    rw [Dl_zero, Dg_zero, rowZeroG_xx]
  | succ i ih =>
    intro j
    induction j with
    | zero =>
      rw [Dl_col_zero, Dg_col_zero]
      simp [xxScheme]
    | succ j ihj =>
      rw [Dl_succ_succ, ih j, ih (j + 1), ihj, ← Dg_succ_succ]
      exact max_eq_right (Dg_nonneg xxScheme le_rfl a b (i + 1) (j + 1))

theorem localBest_xx (a b : List Char) :
    (localBest xxScheme a b).2 = Dg xxScheme a b a.length b.length := by
  refine le_antisymm (localBest_le_corner xxScheme le_rfl a b) ?_
  have h := bestScan_ge (Dl xxScheme a b) (a.length + 1) (b.length + 1) ((0, 0), 0)
    (Nat.lt_succ_self _) (Nat.lt_succ_self _)
  rw [Dl_xx_eq_Dg] at h
  exact h

/-! ## The claims -/

/-- C1: for every pair of sequences, `calculate_similarity` returns the
Ratcliff/Obershelp block-matching similarity times 100 — `2 * M / T * 100`
where `M` is the total length of all matched blocks found by the recursive
longest-block procedure and `T` the sum of the input lengths — and `100`
when both sequences are empty. -/
theorem similarity_eq_ratcliff (a b : List Char) :
    calculate_similarity a b =
      if a.length + b.length = 0 then 100
      else 2 * (ratcliffM a b : ℚ) / ((a.length : ℚ) + (b.length : ℚ)) * 100 := by
  unfold calculate_similarity ratcliffM matchesTotal
  rw [ratcliffBlocks_sum (a.length + b.length) a b]

/-- C2: the classifier flags the sample as divergent/infected exactly when
the similarity is strictly below the threshold; in particular
`classify 89.9 90 = true`, `classify 90 90 = false`,
`classify 100 90 = false`; `check_infection` applies it at threshold 90. -/
theorem classify_spec :
    (∀ s t : ℚ, classify s t = true ↔ s < t)
    ∧ classify (899 / 10) 90 = true
    ∧ classify 90 90 = false
    ∧ classify 100 90 = false
    ∧ ∀ reference userSequence : List Char,
        (check_infection reference userSequence).1
          = classify (calculate_similarity reference userSequence) 90 := by
  refine ⟨fun s t => ?_, ?_, ?_, ?_, fun reference userSequence => rfl⟩
  · simp [classify]
  · norm_num [classify]
  · norm_num [classify]
  · norm_num [classify]

/-- Witness for C2 at a concrete input. -/
theorem classify_spec_witness : classify 50 90 = true :=
  (classify_spec.1 50 90).mpr (by norm_num)

/-- C4, counterexample: the similarity is not symmetric.  With
`a = "AT"`, `b = "TAGT"` the scan picks the block "A" (at positions 0/1)
and then matches "T" in the remainders, giving `M = 2` and similarity
`200/3`; in the swapped order it picks the block "T" (at positions 0/1),
whose remainders ("AGT" against the empty suffix) contain no further
match, giving `M = 1` and similarity `100/3`. -/
theorem similarity_not_symmetric :
    calculate_similarity ['A', 'T'] ['T', 'A', 'G', 'T']
      ≠ calculate_similarity ['T', 'A', 'G', 'T'] ['A', 'T'] := by
  have h1 : matchesTotal ['A', 'T'] ['T', 'A', 'G', 'T'] = 2 := by decide
  have h2 : matchesTotal ['T', 'A', 'G', 'T'] ['A', 'T'] = 1 := by decide
  simp only [calculate_similarity]
  norm_num [h1, h2]

/-- C4, amended: what is symmetric is the length of the longest contiguous
matching block itself; the recursive total (and hence the similarity) is
not, because the tie-break can select different blocks in the two
directions. -/
theorem longest_block_symm (a b : List Char) :
    (findLongestMatch a b).2.2 = (findLongestMatch b a).2.2 := by
  have key : ∀ x y : List Char, (findLongestMatch x y).2.2 ≤ (findLongestMatch y x).2.2 := by
    intro x y
    rcases findLongestMatch_size_attained x y with h | ⟨i, hi, j, hj, h⟩
    · rw [h]; exact Nat.zero_le _
    · rw [h]
      have hsym : blockAt x y i j = blockAt y x j i := by
        unfold blockAt; exact matchLen_comm _ _
      rw [hsym]
      exact findLongestMatch_ge y x hj hi
  exact Nat.le_antisymm (key a b) (key b a)

/-- C3: empty inputs are a defined edge case, not an error: with one empty
sequence, global alignment scores the other sequence's length times the gap
score and aligns it entirely against gaps (so 0 under the default scheme,
stated by the last two conjuncts), while local alignment returns a
zero-score empty AlignedPair. -/
theorem align_empty_input (sc : Scheme) (a b : List Char) :
    global_align sc a []
        = ⟨a, List.replicate a.length '-', sc.gapScore * a.length, 0, a.length, 0, 0⟩
    ∧ global_align sc [] b
        = ⟨List.replicate b.length '-', b, sc.gapScore * b.length, 0, 0, 0, b.length⟩
    ∧ local_align sc a [] = ⟨[], [], 0, 0, 0, 0, 0⟩
    ∧ local_align sc [] b = ⟨[], [], 0, 0, 0, 0, 0⟩
    ∧ (global_align xxScheme a []).score = 0
    ∧ (global_align xxScheme [] b).score = 0 := by
  refine ⟨global_align_nil_right sc a, global_align_nil_left sc b,
    local_align_nil_right sc a, local_align_nil_left sc b, ?_, ?_⟩
  · rw [global_align_nil_right]
    show xxScheme.gapScore * (a.length : ℤ) = 0
    simp [xxScheme]
  · rw [global_align_nil_left]
    show xxScheme.gapScore * (b.length : ℤ) = 0
    simp [xxScheme]

/-- C5: under any scheme with non-negative gap score, the local alignment
score never exceeds the global alignment score, and both are non-negative. -/
theorem local_le_global (sc : Scheme) (a b : List Char) (hg : 0 ≤ sc.gapScore) :
    (local_align sc a b).score ≤ (global_align sc a b).score
    ∧ 0 ≤ (local_align sc a b).score
    ∧ 0 ≤ (global_align sc a b).score := by
  refine ⟨?_, ?_, ?_⟩
  · show (localBest sc a b).2 ≤ Dg sc a b a.length b.length
    exact localBest_le_corner sc hg a b
  · exact localBest_nonneg sc a b
  · exact Dg_nonneg sc hg a b _ _

/-- Witness for C5 at a concrete input. -/
theorem local_le_global_witness :
    (local_align xxScheme ['A'] ['T']).score ≤ (global_align xxScheme ['A'] ['T']).score
    ∧ 0 ≤ (local_align xxScheme ['A'] ['T']).score
    ∧ 0 ≤ (global_align xxScheme ['A'] ['T']).score :=
  local_le_global xxScheme ['A'] ['T'] (by decide)

/-- C7: concrete alignments under the default scheme (match 1, mismatch 0,
gap 0): identical "ATGC" sequences align with score 4 and no gaps; "ATGC"
against "ATGG" scores 3; the local alignment of "AAATGCAAA" and "TGC"
scores 3 and covers exactly the "TGC" at offsets 3..6 of the longer
sequence (and 0..3 of the shorter one). -/
theorem alignment_concrete :
    (global_align xxScheme ['A', 'T', 'G', 'C'] ['A', 'T', 'G', 'C']).score = 4
    ∧ (global_align xxScheme ['A', 'T', 'G', 'C'] ['A', 'T', 'G', 'C']).alignedA
        = ['A', 'T', 'G', 'C']
    ∧ (global_align xxScheme ['A', 'T', 'G', 'C'] ['A', 'T', 'G', 'C']).alignedB
        = ['A', 'T', 'G', 'C']
    ∧ (global_align xxScheme ['A', 'T', 'G', 'C'] ['A', 'T', 'G', 'G']).score = 3
    ∧ local_align xxScheme ['A', 'A', 'A', 'T', 'G', 'C', 'A', 'A', 'A'] ['T', 'G', 'C']
        = ⟨['T', 'G', 'C'], ['T', 'G', 'C'], 3, 3, 6, 0, 3⟩ :=
  ⟨by decide, by decide, by decide, by decide, by decide⟩

/-- C6: every sequence is 100% similar to itself; two empty sequences are
100% similar; the empty sequence is 0% similar to "ATGC". -/
theorem similarity_self_spec :
    (∀ s : List Char, calculate_similarity s s = 100)
    ∧ calculate_similarity [] [] = 100
    ∧ calculate_similarity [] ['A', 'T', 'G', 'C'] = 0 := by
  refine ⟨?_, by simp [calculate_similarity], ?_⟩
  · intro s
    rcases eq_or_ne s [] with rfl | hs
    · simp [calculate_similarity]
    · have hlen : 0 < s.length := List.length_pos.mpr hs
      have hM := matchesTotal_self s hs
      simp only [calculate_similarity, hM]
      rw [if_neg (by omega)]
      have hq : (0 : ℚ) < (s.length : ℚ) := by exact_mod_cast hlen
      field_simp
      ring
  · have h : matchesTotal [] ['A', 'T', 'G', 'C'] = 0 := by decide
    simp only [calculate_similarity]
    norm_num [h]

/-- C8: the full comparison (infection check, global alignment, local
alignment) is a deterministic function of its inputs — two runs on equal
inputs give equal similarity values and equal AlignedPairs. -/
theorem comparison_deterministic (a b a2 b2 : List Char) (ha : a = a2) (hb : b = b2) :
    fullComparison a b = fullComparison a2 b2 := by
  subst ha; subst hb; rfl

/-- Witness for C8 at a concrete input. -/
theorem comparison_deterministic_witness :
    fullComparison ['A', 'T'] ['G', 'C'] = fullComparison ['A', 'T'] ['G', 'C'] :=
  comparison_deterministic ['A', 'T'] ['G', 'C'] ['A', 'T'] ['G', 'C'] rfl rfl

/-- C9: under the code's fixed scoring (match 1, mismatch 0, gap 0 — the
`globalxx`/`localxx` scheme), for non-empty sequences the global alignment
score is the length of a longest common subsequence of the two sequences,
and the local alignment score equals the global one. -/
theorem xx_scores_eq_lcs (a b : List Char) (_ha : a ≠ []) (_hb : b ≠ []) :
    (perform_global_alignment a b).2 = (lcsLen a b : ℤ)
    ∧ IsLcsLength a b (lcsLen a b)
    ∧ (perform_local_alignment a b).2 = (perform_global_alignment a b).2 := by
  have hglobal : (perform_global_alignment a b).2 = Dg xxScheme a b a.length b.length := rfl
  refine ⟨?_, isLcsLength_lcsLen a b, ?_⟩
  · rw [hglobal, Dg_xx_eq_lcs a b a.length b.length le_rfl le_rfl, List.take_length,
      List.take_length]
  · rw [hglobal]
    show (localBest xxScheme a b).2 = _
    exact localBest_xx a b

/-- Witness for C9 at a concrete input. -/
theorem xx_scores_eq_lcs_witness :
    (perform_global_alignment ['A', 'T'] ['T', 'G']).2 = (lcsLen ['A', 'T'] ['T', 'G'] : ℤ)
    ∧ IsLcsLength ['A', 'T'] ['T', 'G'] (lcsLen ['A', 'T'] ['T', 'G'])
    ∧ (perform_local_alignment ['A', 'T'] ['T', 'G']).2
        = (perform_global_alignment ['A', 'T'] ['T', 'G']).2 :=
  xx_scores_eq_lcs ['A', 'T'] ['T', 'G'] (by decide) (by decide)

/-- C10: the alphabet validation accepts the empty query (the check is
vacuously true), so an empty query is passed on to the similarity
computation and to both alignments rather than rejected. -/
theorem empty_query_accepted :
    isValidDNA [] = true
    ∧ ∀ reference : List Char,
        mainAnalysis reference [] = some (fullComparison reference []) :=
  ⟨rfl, fun _ => rfl⟩

end LungCancer

